import Mathlib

/-!
# Verification of the `isochrone` Gemtext line parser

A shallow embedding of `src/lib.rs` (the `Page::parse` routine and the
`Line` record type) and proofs about it.

Strings are modelled as `List Char`.  The Rust code slices by byte index;
after the ASCII prefixes `"=>"`, `"* "`, `">"` and three backticks the
byte offset and the character offset coincide, so those slices are plain
`List.drop`.  The heading branch slices at byte offset 3 and at byte
offset `level`, which need not be character offsets: these two slices are
modelled byte-faithfully through `Char.utf8Size` (`takeBytes`,
`dropBytes`), and a slice whose byte index is out of bounds or not a
character boundary is a panic in Rust, modelled here by `Option.none`.
-/

namespace Isochrone

/-- The `Line` enum from `src/lib.rs`: one classified record per consumed
physical line (a preformatted block collapses several physical lines into
one `Pre` record).  `level` is a `u8` in the source; it is at most 3 here,
so `Nat` models it without loss. -/
inductive Line : Type where
  | Text : List Char → Line
  | Link : List Char → Option (List Char) → Line
  | Pre : Option (List Char) → List Char → Line
  | Heading : Nat → List Char → Line
  | ListItem : List Char → Line
  | Quote : List Char → Line
deriving DecidableEq, Repr

/-- Rust `str::starts_with`: `startsWith p s` holds when `p` is an initial
segment of `s`. -/
def startsWith : List Char → List Char → Bool
  | [], _ => true
  | _ :: _, [] => false
  | p :: ps, c :: cs => p = c && startsWith ps cs

/-- The Unicode `White_Space` property, as used by Rust
`char::is_whitespace` (and hence by `str::trim`, `trim_start` and
`split_once(char::is_whitespace)`). -/
def isWS (c : Char) : Bool :=
  c = '\u0009' || c = '\u000A' || c = '\u000B' || c = '\u000C' ||
  c = '\u000D' || c = '\u0020' || c = '\u0085' || c = '\u00A0' ||
  c = '\u1680' || ('\u2000' ≤ c && c ≤ '\u200A') || c = '\u2028' ||
  c = '\u2029' || c = '\u202F' || c = '\u205F' || c = '\u3000'

/-- Rust `str::trim_start`. -/
def trimStart (s : List Char) : List Char := s.dropWhile isWS

/-- Rust `str::trim_end`. -/
def trimEnd (s : List Char) : List Char := (s.reverse.dropWhile isWS).reverse

/-- Rust `str::trim`. -/
def trim (s : List Char) : List Char := trimEnd (trimStart s)

/-- Rust `str::split_once(char::is_whitespace)`: split at the first
whitespace character, which itself is dropped; `none` when the string
contains no whitespace. -/
def splitOnceWS : List Char → Option (List Char × List Char)
  | [] => none
  | c :: cs =>
      if isWS c then some ([], cs)
      else (splitOnceWS cs).map (fun p => (c :: p.1, p.2))

/-- Rust `str::strip_suffix` for a single character. -/
def stripSuffixChar (c : Char) (s : List Char) : Option (List Char) :=
  if s.getLast? = some c then some s.dropLast else none

/-- Rust `str::split_inclusive('\n')`: the chunks of the string, each
ending with `'\n'` except possibly the last. -/
def splitInclusiveNL : List Char → List (List Char)
  | [] => []
  | c :: cs =>
      if c = '\n' then ['\n'] :: splitInclusiveNL cs
      else
        match splitInclusiveNL cs with
        | [] => [[c]]
        | chunk :: rest => (c :: chunk) :: rest

/-- The map applied by Rust `str::lines` to each inclusive chunk: strip a
trailing `'\n'`, and if that succeeded also strip a trailing `'\r'`. -/
def linesMap (l : List Char) : List Char :=
  match stripSuffixChar '\n' l with
  | none => l
  | some l1 =>
      match stripSuffixChar '\r' l1 with
      | none => l1
      | some l2 => l2

/-- Rust `str::lines`: `split_inclusive('\n')` followed by stripping the
`"\n"` or `"\r\n"` terminator of each chunk. -/
def rustLines (s : List Char) : List (List Char) :=
  (splitInclusiveNL s).map linesMap

/-- The link branch of `Page::parse` (`line` starts with `"=>"`): drop the
marker, trim leading whitespace, and split at the first whitespace. -/
def parseLink (line : List Char) : Line :=
  let trailing := trimStart (line.drop 2)
  match splitOnceWS trailing with
  | some (url, name) => Line.Link url (some (trim name))
  | none => Line.Link (trim trailing) none

/-- Rust byte slicing `&s[..n]` on a string modelled as `List Char`: the
characters making up the first `n` bytes, or `none` when `n` exceeds the
byte length or falls inside a character (both panic in Rust). -/
def takeBytes : Nat → List Char → Option (List Char)
  | 0, _ => some []
  | _ + 1, [] => none
  | n + 1, c :: cs =>
      if c.utf8Size ≤ n + 1 then
        (takeBytes (n + 1 - c.utf8Size) cs).map (fun ts => c :: ts)
      else none

/-- Rust byte slicing `&s[n..]` on a string modelled as `List Char`: the
characters after the first `n` bytes, or `none` when `n` exceeds the byte
length or falls inside a character (both panic in Rust). -/
def dropBytes : Nat → List Char → Option (List Char)
  | 0, s => some s
  | _ + 1, [] => none
  | n + 1, c :: cs =>
      if c.utf8Size ≤ n + 1 then dropBytes (n + 1 - c.utf8Size) cs
      else none

/-- The heading branch of `Page::parse` (`line` starts with `"#"`):
`level` counts the `'#'` characters among the characters of the line's
first 3 bytes (the source's byte slice `line[..3]`), and `content` is the
line with its first `level` bytes sliced off (`line[level..]`), trimmed.
Either slice panics (`none`) when its byte index is out of bounds or not
a character boundary. -/
def parseHeading (line : List Char) : Option Line :=
  match takeBytes 3 line with
  | none => none
  | some first3 =>
      let level := (first3.filter (fun c => c = '#')).length
      match dropBytes level line with
      | none => none
      | some tail => some (Line.Heading level (trim tail))

/-- The `alt` field of a preformatted block: the opening line after the
three backticks, trimmed; `none` when empty after trimming. -/
def parseAlt (line : List Char) : Option (List Char) :=
  let trailing := trim (line.drop 3)
  if trailing = [] then none else some trailing

/-- The inner loop of the preformatted branch: consume raw lines, appending
each to the content with no separator, until a line starting with three
backticks is consumed (and discarded) or input is exhausted.  Returns the
accumulated content and the remaining lines. -/
def preBody : List (List Char) → List Char × List (List Char)
  | [] => ([], [])
  | l :: rest =>
      if startsWith "```".toList l then ([], rest)
      else
        let p := preBody rest
        (l ++ p.1, p.2)

/-- The main loop of `Page::parse`, over the already-split physical lines.
Each branch mirrors the corresponding `if line.starts_with(..)` arm of the
source, in the source's order.  The heading branch returns `none` exactly
when one of the source's byte slices `line[..3]` or `line[level..]` is out
of bounds or not on a character boundary, where the Rust code panics. -/
def parseLines : List (List Char) → Option (List Line)
  | [] => some []
  | line :: rest =>
      if startsWith "=>".toList line then
        (parseLines rest).map (fun ls => parseLink line :: ls)
      else if startsWith "#".toList line then
        match parseHeading line with
        | none => none
        | some hrec => (parseLines rest).map (fun ls => hrec :: ls)
      else if startsWith "* ".toList line then
        (parseLines rest).map (fun ls => Line.ListItem (trim (line.drop 2)) :: ls)
      else if startsWith ">".toList line then
        (parseLines rest).map (fun ls => Line.Quote (trim (line.drop 1)) :: ls)
      else if startsWith "```".toList line then
        (parseLines (preBody rest).2).map
          (fun ls => Line.Pre (parseAlt line) (preBody rest).1 :: ls)
      else
        (parseLines rest).map (fun ls => Line.Text (trim line) :: ls)
termination_by ls => ls.length
decreasing_by
  all_goals simp only [List.length_cons]
  all_goals
    have hpb : ∀ ls : List (List Char), (preBody ls).2.length ≤ ls.length := by
      intro ls
      induction ls with
      | nil => simp [preBody]
      | cons l tail ih =>
          simp only [preBody]
          split
          · simp
          · simpa using Nat.le_succ_of_le ih
  all_goals first
    | exact Nat.lt_succ_of_le (hpb rest)
    | exact Nat.lt_succ_self rest.length

/-- `Page::parse`: split the input into physical lines as Rust
`str::lines` does, then classify them.  The `Page` struct is just the
record list, so the result is modelled as `List Line`; `none` models a
panic of the Rust code. -/
def parse (text : List Char) : Option (List Line) :=
  parseLines (rustLines text)

/-- The total number of physical lines discarded by preformatted blocks
beyond each block's opening line, following the same traversal as
`parseLines`: a preformatted block that consumes `k` physical lines in all
contributes `k - 1` here. -/
def preExcess : List (List Char) → Nat
  | [] => 0
  | line :: rest =>
      if startsWith "```".toList line then
        (rest.length - (preBody rest).2.length) + preExcess (preBody rest).2
      else preExcess rest
termination_by ls => ls.length
decreasing_by
  all_goals simp only [List.length_cons]
  all_goals
    have hpb : ∀ ls : List (List Char), (preBody ls).2.length ≤ ls.length := by
      intro ls
      induction ls with
      | nil => simp [preBody]
      | cons l tail ih =>
          simp only [preBody]
          split
          · simp
          · simpa using Nat.le_succ_of_le ih
  all_goals first
    | exact Nat.lt_succ_of_le (hpb rest)
    | exact Nat.lt_succ_self rest.length

/-- Whether the input contains at least one preformatted block spanning
more than one physical line, following the same traversal as
`parseLines`. -/
def hasMultiPre : List (List Char) → Bool
  | [] => false
  | line :: rest =>
      if startsWith "```".toList line then
        decide (0 < rest.length - (preBody rest).2.length) ||
          hasMultiPre (preBody rest).2
      else hasMultiPre rest
termination_by ls => ls.length
decreasing_by
  all_goals simp only [List.length_cons]
  all_goals
    have hpb : ∀ ls : List (List Char), (preBody ls).2.length ≤ ls.length := by
      intro ls
      induction ls with
      | nil => simp [preBody]
      | cons l tail ih =>
          simp only [preBody]
          split
          · simp
          · simpa using Nat.le_succ_of_le ih
  all_goals first
    | exact Nat.lt_succ_of_le (hpb rest)
    | exact Nat.lt_succ_self rest.length

/-- Join a list of lines with the given separator between consecutive
lines (no trailing separator). -/
def joinSep (sep : List Char) : List (List Char) → List Char
  | [] => []
  | [l] => l
  | l :: rest => l ++ sep ++ joinSep sep rest

/-! ## Basic lemmas about the dispatch tests and the preformatted loop -/

theorem startsWith_neq (c d : Char) (p q l : List Char) (hcd : d ≠ c)
    (h : startsWith (c :: p) l = true) : startsWith (d :: q) l = false := by
  cases l with
  | nil => simp [startsWith] at h
  | cons x xs =>
      simp only [startsWith, Bool.and_eq_true, decide_eq_true_eq] at h
      have hdx : d ≠ x := fun hx => hcd (hx.trans h.1.symm)
      simp [startsWith, hdx]

theorem not_sw_pre (c : Char) (p l : List Char) (hne : c ≠ '`')
    (h : startsWith (c :: p) l = true) :
    ¬ startsWith "```".toList l = true := by
  simpa using startsWith_neq c '`' p ['`', '`'] l hne.symm h

theorem preBody_le (ls : List (List Char)) :
    (preBody ls).2.length ≤ ls.length := by
  induction ls with
  | nil => simp [preBody]
  | cons l rest ih =>
      simp only [preBody]
      split
      · simp
      · simpa using Nat.le_succ_of_le ih

/-- Unfolding `parseLines` at a link line. -/
theorem parseLines_link (line : List Char) (rest : List (List Char))
    (h : startsWith "=>".toList line = true) :
    parseLines (line :: rest) =
      (parseLines rest).map (fun ls => parseLink line :: ls) := by
  rw [parseLines, if_pos h]

/-- Unfolding `parseLines` at a heading line whose byte slices are in
bounds and on character boundaries. -/
theorem parseLines_heading (line : List Char) (rest : List (List Char))
    (h : startsWith "#".toList line = true) (hrec : Line)
    (hph : parseHeading line = some hrec) :
    parseLines (line :: rest) =
      (parseLines rest).map (fun ls => hrec :: ls) := by
  have h1 : startsWith "=>".toList line = false :=
    startsWith_neq '#' '=' [] ['>'] line (by decide) h
  rw [parseLines, if_neg (by simpa using h1), if_pos h, hph]

/-- Unfolding `parseLines` at a heading line on which one of the source's
byte slices `line[..3]` or `line[level..]` panics. -/
theorem parseLines_heading_panic (line : List Char) (rest : List (List Char))
    (h : startsWith "#".toList line = true)
    (hph : parseHeading line = none) :
    parseLines (line :: rest) = none := by
  have h1 : startsWith "=>".toList line = false :=
    startsWith_neq '#' '=' [] ['>'] line (by decide) h
  rw [parseLines, if_neg (by simpa using h1), if_pos h, hph]

/-- Unfolding `parseLines` at a list-item line. -/
theorem parseLines_listItem (line : List Char) (rest : List (List Char))
    (h : startsWith "* ".toList line = true) :
    parseLines (line :: rest) =
      (parseLines rest).map (fun ls => Line.ListItem (trim (line.drop 2)) :: ls) := by
  have h1 : startsWith "=>".toList line = false :=
    startsWith_neq '*' '=' [' '] ['>'] line (by decide) h
  have h2 : startsWith "#".toList line = false :=
    startsWith_neq '*' '#' [' '] [] line (by decide) h
  rw [parseLines, if_neg (by simpa using h1), if_neg (by simpa using h2), if_pos h]

/-- Unfolding `parseLines` at a quote line. -/
theorem parseLines_quote (line : List Char) (rest : List (List Char))
    (h : startsWith ">".toList line = true) :
    parseLines (line :: rest) =
      (parseLines rest).map (fun ls => Line.Quote (trim (line.drop 1)) :: ls) := by
  have h1 : startsWith "=>".toList line = false :=
    startsWith_neq '>' '=' [] ['>'] line (by decide) h
  have h2 : startsWith "#".toList line = false :=
    startsWith_neq '>' '#' [] [] line (by decide) h
  have h3 : startsWith "* ".toList line = false :=
    startsWith_neq '>' '*' [] [' '] line (by decide) h
  rw [parseLines, if_neg (by simpa using h1), if_neg (by simpa using h2),
    if_neg (by simpa using h3), if_pos h]

/-- Unfolding `parseLines` at a preformatted-block opener, in terms of the
inner loop `preBody`. -/
theorem parseLines_pre (line : List Char) (rest : List (List Char))
    (h : startsWith "```".toList line = true) :
    parseLines (line :: rest) =
      (parseLines (preBody rest).2).map
        (fun ls => Line.Pre (parseAlt line) (preBody rest).1 :: ls) := by
  have h1 : startsWith "=>".toList line = false :=
    startsWith_neq '`' '=' ['`', '`'] ['>'] line (by decide) h
  have h2 : startsWith "#".toList line = false :=
    startsWith_neq '`' '#' ['`', '`'] [] line (by decide) h
  have h3 : startsWith "* ".toList line = false :=
    startsWith_neq '`' '*' ['`', '`'] [' '] line (by decide) h
  have h4 : startsWith ">".toList line = false :=
    startsWith_neq '`' '>' ['`', '`'] [] line (by decide) h
  rw [parseLines, if_neg (by simpa using h1), if_neg (by simpa using h2),
    if_neg (by simpa using h3), if_neg (by simpa using h4), if_pos h]

/-- Unfolding `parseLines` at a plain text line (no marker matches). -/
theorem parseLines_text (line : List Char) (rest : List (List Char))
    (h1 : startsWith "=>".toList line = false)
    (h2 : startsWith "#".toList line = false)
    (h3 : startsWith "* ".toList line = false)
    (h4 : startsWith ">".toList line = false)
    (h5 : startsWith "```".toList line = false) :
    parseLines (line :: rest) =
      (parseLines rest).map (fun ls => Line.Text (trim line) :: ls) := by
  rw [parseLines, if_neg (by simpa using h1), if_neg (by simpa using h2),
    if_neg (by simpa using h3), if_neg (by simpa using h4), if_neg (by simpa using h5)]

theorem parseLines_nil : parseLines [] = some [] := by
  rw [parseLines]

/-- The inner preformatted loop when no line of the input starts with three
backticks: everything is consumed into the content. -/
theorem preBody_no_close (body : List (List Char))
    (hbody : ∀ l ∈ body, startsWith "```".toList l = false) :
    preBody body = (body.foldr (fun l acc => l ++ acc) [], []) := by
  induction body with
  | nil => simp [preBody]
  | cons l rest ih =>
      rw [preBody, if_neg (by simpa using hbody l (List.mem_cons_self l rest))]
      simp [ih (fun x hx => hbody x (List.mem_cons_of_mem l hx))]

/-- The inner preformatted loop when a closing fence follows the body: the
body is concatenated, the closing line is discarded, the rest remains. -/
theorem preBody_with_close (body : List (List Char)) (close : List Char)
    (rest : List (List Char))
    (hbody : ∀ l ∈ body, startsWith "```".toList l = false)
    (hclose : startsWith "```".toList close = true) :
    preBody (body ++ close :: rest) =
      (body.foldr (fun l acc => l ++ acc) [], rest) := by
  induction body with
  | nil => rw [List.nil_append, preBody, if_pos hclose]; simp
  | cons l tail ih =>
      rw [List.cons_append, preBody,
        if_neg (by simpa using hbody l (List.mem_cons_self l tail))]
      simp [ih (fun x hx => hbody x (List.mem_cons_of_mem l hx))]

/-- `split_once(char::is_whitespace)` characterised by the first whitespace
position: the left segment is everything before the first whitespace, the
right segment everything after it. -/
theorem splitOnceWS_eq (t : List Char) :
    splitOnceWS t =
      if t.any isWS then
        some (t.takeWhile (fun c => !isWS c),
          (t.dropWhile (fun c => !isWS c)).drop 1)
      else none := by
  induction t with
  | nil => simp [splitOnceWS]
  | cons c cs ih =>
      by_cases hc : isWS c
      · simp [splitOnceWS, hc, List.takeWhile_cons, List.dropWhile_cons]
      · rw [splitOnceWS, if_neg hc, ih]
        by_cases hany : cs.any isWS
        · simp [hany, hc, List.takeWhile_cons, List.dropWhile_cons]
        · simp [hany, hc]

/-! ## The claims -/

/-- C1: the claim states that `Page::parse` returns a `Document` without
faulting on every finite input, including a line consisting of exactly
`"#"`.  The code violates this: on the input `"#"` the heading branch
evaluates the slice `line[..3]` on a 1-character line, which is out of
bounds and panics.  This theorem evaluates the model at that failing
input (`none` is the model of the panic). -/
theorem C1_parse_hash_panics : parse "#".toList = none := by
  have h : rustLines "#".toList = [['#']] := by decide
  simp only [parse]
  rw [h]
  exact parseLines_heading_panic ['#'] [] (by decide) (by decide)

/-- C9: `Page::parse` applied to the empty string returns a document with
zero line records. -/
theorem C9_parse_empty : parse "".toList = some [] := by
  have h : rustLines "".toList = [] := by decide
  simp only [parse]
  rw [h, parseLines_nil]

/-- Byte slicing `&s[..n]` coincides with taking the first `n` characters
when each of those characters is one byte wide. -/
theorem takeBytes_ascii (n : Nat) :
    ∀ s : List Char, n ≤ s.length → (∀ c ∈ s.take n, c.utf8Size = 1) →
      takeBytes n s = some (s.take n) := by
  induction n with
  | zero =>
      intro s _ _
      simp [takeBytes]
  | succ n ih =>
      intro s hn hb
      cases s with
      | nil => simp at hn
      | cons c cs =>
          have hc : c.utf8Size = 1 := hb c (by simp)
          rw [takeBytes, if_pos (by simp [hc])]
          simp only [hc, Nat.add_sub_cancel]
          rw [ih cs (by simpa using hn) (fun x hx => hb x (by simp [hx]))]
          simp

/-- Byte slicing `&s[n..]` coincides with dropping the first `n`
characters when each of those characters is one byte wide. -/
theorem dropBytes_ascii (n : Nat) :
    ∀ s : List Char, n ≤ s.length → (∀ c ∈ s.take n, c.utf8Size = 1) →
      dropBytes n s = some (s.drop n) := by
  induction n with
  | zero =>
      intro s _ _
      simp [dropBytes]
  | succ n ih =>
      intro s hn hb
      cases s with
      | nil => simp at hn
      | cons c cs =>
          have hc : c.utf8Size = 1 := hb c (by simp)
          rw [dropBytes, if_pos (by simp [hc])]
          simp only [hc, Nat.add_sub_cancel]
          rw [ih cs (by simpa using hn) (fun x hx => hb x (by simp [hx]))]
          simp

/-- C2 as stated is false of the code: the source inspects the first 3
BYTES (`line[..3]`), not the first 3 characters.  On `"#\u00A0#"` (3
characters but 4 bytes, since no-break space is 2 bytes wide) the first 3
bytes hold the characters `['#', '\u00A0']`, so the code produces level 1,
while the claim demands level 2 — the count of `'#'` among the first 3
characters; and on `"#\u20ACx"` byte offset 3 falls inside the euro sign,
so the code panics instead of emitting a Heading at all. -/
theorem C2_counterexample :
    (startsWith "#".toList "#\u00A0#".toList = true ∧
      3 ≤ "#\u00A0#".toList.length ∧
      parseLines ["#\u00A0#".toList] ≠
        some [Line.Heading
            ((("#\u00A0#".toList.take 3).filter (fun c => c = '#')).length)
            (trim ("#\u00A0#".toList.drop
              ((("#\u00A0#".toList.take 3).filter (fun c => c = '#')).length)))]) ∧
    (startsWith "#".toList "#\u20ACx".toList = true ∧
      3 ≤ "#\u20ACx".toList.length ∧
      parseLines ["#\u20ACx".toList] = none) := by
  refine ⟨⟨by decide, by decide, ?_⟩, ⟨by decide, by decide, ?_⟩⟩
  · rw [parseLines_heading "#\u00A0#".toList [] (by decide)
      (Line.Heading 1 ['#']) (by decide), parseLines_nil]
    decide
  · exact parseLines_heading_panic "#\u20ACx".toList [] (by decide) (by decide)

/-- C2 (amended): for every physical line that begins with `'#'`, has at
least 3 characters, and whose first 3 characters are each one UTF-8 byte
wide (in particular any ASCII heading line) — so that the source's byte
offsets coincide with character offsets — the parser emits a `Heading`
whose level is the number of `'#'` characters among the line's first 3
characters (so between 1 and 3), and whose content is the line with
exactly `level` leading characters sliced off and the remainder
whitespace-trimmed. -/
theorem C2_heading (line : List Char) (rest : List (List Char))
    (h : startsWith "#".toList line = true) (hlen : 3 ≤ line.length)
    (hbytes : ∀ c ∈ line.take 3, c.utf8Size = 1) :
    1 ≤ ((line.take 3).filter (fun c => c = '#')).length ∧
    ((line.take 3).filter (fun c => c = '#')).length ≤ 3 ∧
    parseLines (line :: rest) =
      (parseLines rest).map (fun ls =>
        Line.Heading (((line.take 3).filter (fun c => c = '#')).length)
          (trim (line.drop (((line.take 3).filter (fun c => c = '#')).length)))
        :: ls) := by
  have hle3 : ((line.take 3).filter (fun c => c = '#')).length ≤ 3 := by
    calc ((line.take 3).filter (fun c => c = '#')).length
        ≤ (line.take 3).length := List.length_filter_le _ _
      _ ≤ 3 := by simp [List.length_take]
  refine ⟨?_, hle3, ?_⟩
  · cases line with
    | nil => simp [startsWith] at h
    | cons c cs =>
        simp only [startsWith, Bool.and_eq_true, decide_eq_true_eq] at h
        rw [← h.1]
        simp [List.take_cons, List.filter_cons]
  · have hsub : line.take (((line.take 3).filter (fun c => c = '#')).length) ⊆
        line.take 3 := by
      intro y hy
      have he : (line.take 3).take
          (((line.take 3).filter (fun c => c = '#')).length) =
          line.take (((line.take 3).filter (fun c => c = '#')).length) := by
        rw [List.take_take, min_eq_left hle3]
      rw [← he] at hy
      exact List.take_subset _ _ hy
    have hdb : dropBytes (((line.take 3).filter (fun c => c = '#')).length) line =
        some (line.drop (((line.take 3).filter (fun c => c = '#')).length)) :=
      dropBytes_ascii _ line (by omega) (fun x hx => hbytes x (hsub hx))
    have hph : parseHeading line =
        some (Line.Heading (((line.take 3).filter (fun c => c = '#')).length)
          (trim (line.drop (((line.take 3).filter (fun c => c = '#')).length)))) := by
      simp only [parseHeading, takeBytes_ascii 3 line hlen hbytes, hdb]
    exact parseLines_heading line rest h _ hph

/-- Witness for C2 at the spec's overflow example: five leading hashes give
level 3 and the two leftover hashes stay in the content. -/
theorem C2_heading_witness :
    parseLines ["#####ab".toList] = some [Line.Heading 3 "##ab".toList] := by
  have h := C2_heading "#####ab".toList [] (by decide) (by decide) (by decide)
  rw [h.2.2, parseLines_nil]
  decide

/-- C3: for every physical line beginning with `"=>"`, the parser emits one
`Link` record: with `t` the remainder after the marker, leading-whitespace
trimmed, if `t` contains a whitespace character then `url` is the segment
before the first whitespace (unmodified) and `name` is `some` of the
whitespace-trimmed segment after it; if `t` contains no whitespace then
`url` is `t` trimmed and `name` is `none`. -/
theorem C3_link (line : List Char) (rest : List (List Char))
    (h : startsWith "=>".toList line = true) :
    parseLines (line :: rest) =
      (parseLines rest).map (fun ls => parseLink line :: ls) ∧
    ((trimStart (line.drop 2)).any isWS = true →
      parseLink line =
        Line.Link ((trimStart (line.drop 2)).takeWhile (fun c => !isWS c))
          (some (trim
            (((trimStart (line.drop 2)).dropWhile (fun c => !isWS c)).drop 1)))) ∧
    ((trimStart (line.drop 2)).any isWS = false →
      parseLink line = Line.Link (trim (trimStart (line.drop 2))) none) := by
  refine ⟨parseLines_link line rest h, ?_, ?_⟩
  · intro hany
    simp only [parseLink, splitOnceWS_eq, hany, if_pos]
  · intro hany
    simp only [parseLink, splitOnceWS_eq, hany]
    simp

/-- Witness for C3 at the bare line `"=>"`: empty url, no name. -/
theorem C3_link_witness :
    parseLines ["=>".toList] = some [Line.Link [] none] := by
  have h := C3_link "=>".toList [] (by decide)
  rw [h.1, parseLines_nil]
  decide

/-- C7: every physical line that starts with none of `"=>"`, `"#"`,
`"* "`, `">"` and three backticks is emitted as exactly one `Text` record
holding the whole line trimmed of leading and trailing whitespace; no line
is rejected or left unclassified. -/
theorem C7_plain_text (line : List Char) (rest : List (List Char))
    (h1 : startsWith "=>".toList line = false)
    (h2 : startsWith "#".toList line = false)
    (h3 : startsWith "* ".toList line = false)
    (h4 : startsWith ">".toList line = false)
    (h5 : startsWith "```".toList line = false) :
    parseLines (line :: rest) =
      (parseLines rest).map (fun ls => Line.Text (trim line) :: ls) :=
  parseLines_text line rest h1 h2 h3 h4 h5

/-- Witness for C7 at a plain line with surrounding whitespace. -/
theorem C7_plain_text_witness :
    parseLines ["  hello world ".toList] =
      some [Line.Text "hello world".toList] := by
  have h := C7_plain_text "  hello world ".toList []
    (by decide) (by decide) (by decide) (by decide) (by decide)
  rw [h, parseLines_nil]
  decide

theorem mem_of_getLast? {l : List Char} {c : Char}
    (h : l.getLast? = some c) : c ∈ l := by
  induction l with
  | nil => cases h
  | cons x xs ih =>
      cases xs with
      | nil =>
          simp only [List.getLast?_singleton, Option.some.injEq] at h
          simp [h]
      | cons y ys =>
          rw [List.getLast?_cons_cons] at h
          exact List.mem_cons_of_mem x (ih h)

theorem getLast?_concat_eq (l : List Char) (c : Char) :
    (l ++ [c]).getLast? = some c := by
  rw [List.getLast?_append_cons]
  simp

theorem stripSuffixChar_concat (c : Char) (l : List Char) :
    stripSuffixChar c (l ++ [c]) = some l := by
  simp [stripSuffixChar, getLast?_concat_eq]

theorem stripSuffixChar_of_ne (c : Char) (l : List Char)
    (h : l.getLast? ≠ some c) : stripSuffixChar c l = none := by
  simp [stripSuffixChar, h]

theorem linesMap_of_not_nl (l : List Char) (h : l.getLast? ≠ some '\n') :
    linesMap l = l := by
  simp only [linesMap, stripSuffixChar_of_ne '\n' l h]

theorem linesMap_concat_nl (l : List Char) (h : l.getLast? ≠ some '\r') :
    linesMap (l ++ ['\n']) = l := by
  simp only [linesMap, stripSuffixChar_concat, stripSuffixChar_of_ne '\r' l h]

theorem linesMap_concat_crnl (l : List Char) :
    linesMap (l ++ ['\r', '\n']) = l := by
  have h : l ++ ['\r', '\n'] = (l ++ ['\r']) ++ ['\n'] := by simp
  simp only [h, linesMap, stripSuffixChar_concat]

/-- `split_inclusive('\n')` peels off the chunk before the first
newline. -/
theorem splitInclusiveNL_append (a t : List Char) (ha : '\n' ∉ a) :
    splitInclusiveNL (a ++ '\n' :: t) = (a ++ ['\n']) :: splitInclusiveNL t := by
  induction a with
  | nil => simp [splitInclusiveNL]
  | cons c cs ih =>
      have hc : c ≠ '\n' := fun h => ha (h ▸ List.mem_cons_self c cs)
      rw [List.cons_append, splitInclusiveNL, if_neg hc,
        ih (fun h => ha (List.mem_cons_of_mem c h))]
      simp

theorem splitInclusiveNL_no_nl (a : List Char) (ha : '\n' ∉ a)
    (hne : a ≠ []) : splitInclusiveNL a = [a] := by
  induction a with
  | nil => exact absurd rfl hne
  | cons c cs ih =>
      have hc : c ≠ '\n' := fun h => ha (h ▸ List.mem_cons_self c cs)
      rw [splitInclusiveNL, if_neg hc]
      by_cases hcs : cs = []
      · subst hcs
        rw [splitInclusiveNL]
      · rw [ih (fun h => ha (List.mem_cons_of_mem c h)) hcs]

/-- `str::lines` peels off the line before the first newline. -/
theorem rustLines_decomp (a t : List Char) (ha : '\n' ∉ a) :
    rustLines (a ++ '\n' :: t) = linesMap (a ++ ['\n']) :: rustLines t := by
  simp only [rustLines, splitInclusiveNL_append a t ha, List.map_cons]

theorem rustLines_decomp_cr (a t : List Char) (ha : '\n' ∉ a) :
    rustLines (a ++ '\r' :: '\n' :: t) =
      linesMap (a ++ ['\r', '\n']) :: rustLines t := by
  have h : a ++ '\r' :: '\n' :: t = (a ++ ['\r']) ++ '\n' :: t := by simp
  rw [h, rustLines_decomp (a ++ ['\r']) t (by simp [ha])]
  simp

theorem rustLines_no_nl (a : List Char) (ha : '\n' ∉ a) :
    rustLines a = if a = [] then [] else [a] := by
  by_cases hne : a = []
  · subst hne
    simp [rustLines, splitInclusiveNL]
  · rw [if_neg hne, rustLines, splitInclusiveNL_no_nl a ha hne]
    simp [linesMap_of_not_nl a (fun hc => ha (mem_of_getLast? hc))]

theorem exists_nl_split (s : List Char) (h : '\n' ∈ s) :
    ∃ a t, s = a ++ '\n' :: t ∧ '\n' ∉ a := by
  induction s with
  | nil => cases h
  | cons c cs ih =>
      by_cases hc : c = '\n'
      · subst hc
        exact ⟨[], cs, rfl, by simp⟩
      · have hcs : '\n' ∈ cs := by
          rcases List.mem_cons.mp h with h1 | h2
          · exact absurd h1.symm hc
          · exact h2
        obtain ⟨a, t, heq, hna⟩ := ih hcs
        refine ⟨c :: a, t, by rw [List.cons_append, heq], ?_⟩
        intro hm
        rcases List.mem_cons.mp hm with h1 | h2
        · exact hc h1.symm
        · exact hna h2

theorem rustLines_concat_nl_aux :
    ∀ (n : Nat) (s : List Char), s.length ≤ n → s ≠ [] →
      s.getLast? ≠ some '\n' → s.getLast? ≠ some '\r' →
      rustLines (s ++ ['\n']) = rustLines s := by
  intro n
  induction n with
  | zero =>
      intro s hlen hne _ _
      cases s with
      | nil => exact absurd rfl hne
      | cons c cs => simp at hlen
  | succ n ih =>
      intro s hlen hne h1 h2
      by_cases hmem : '\n' ∈ s
      · obtain ⟨a, t, rfl, hna⟩ := exists_nl_split s hmem
        have ht : t ≠ [] := by
          rintro rfl
          exact h1 (getLast?_concat_eq a '\n')
        have hgl : (a ++ '\n' :: t).getLast? = t.getLast? := by
          rw [List.getLast?_append_cons, ← List.singleton_append]
          exact List.getLast?_append_of_ne_nil ['\n'] ht
        have hassoc : (a ++ '\n' :: t) ++ ['\n'] = a ++ '\n' :: (t ++ ['\n']) := by
          simp
        rw [hassoc, rustLines_decomp a (t ++ ['\n']) hna, rustLines_decomp a t hna]
        have hlt : t.length ≤ n := by
          have := congrArg List.length (rfl : a ++ '\n' :: t = a ++ '\n' :: t)
          simp only [List.length_append, List.length_cons] at hlen
          omega
        rw [ih t hlt ht (hgl ▸ h1) (hgl ▸ h2)]
      · rw [rustLines_decomp s [] hmem, linesMap_concat_nl s h2,
          rustLines_no_nl s hmem, if_neg hne]
        simp [rustLines, splitInclusiveNL]

theorem rustLines_join (lls : List (List Char))
    (h : ∀ l ∈ lls, '\n' ∉ l ∧ '\r' ∉ l) :
    rustLines (joinSep ['\r', '\n'] lls) = rustLines (joinSep ['\n'] lls) := by
  induction lls with
  | nil => rfl
  | cons l rest ih =>
      cases rest with
      | nil => rfl
      | cons l2 ls2 =>
          have hl := h l (List.mem_cons_self l (l2 :: ls2))
          have e1 : joinSep ['\r', '\n'] (l :: l2 :: ls2) =
              l ++ '\r' :: '\n' :: joinSep ['\r', '\n'] (l2 :: ls2) := by
            simp [joinSep]
          have e2 : joinSep ['\n'] (l :: l2 :: ls2) =
              l ++ '\n' :: joinSep ['\n'] (l2 :: ls2) := by
            simp [joinSep]
          rw [e1, e2, rustLines_decomp_cr l _ hl.1, rustLines_decomp l _ hl.1,
            linesMap_concat_crnl,
            linesMap_concat_nl l (fun hc => hl.2 (mem_of_getLast? hc)),
            ih (fun x hx => h x (List.mem_cons_of_mem l hx))]

/-- C8: for every finite sequence of lines containing neither newline nor
carriage-return characters, parsing the text joined with `"\r\n"`
separators gives the same document as parsing the text joined with `"\n"`
separators. -/
theorem C8_crlf_equiv (lls : List (List Char))
    (h : ∀ l ∈ lls, '\n' ∉ l ∧ '\r' ∉ l) :
    parse (joinSep ['\r', '\n'] lls) = parse (joinSep ['\n'] lls) := by
  simp only [parse, rustLines_join lls h]

/-- Witness for C8 on the two lines `"a"` and `"b"`. -/
theorem C8_crlf_equiv_witness : parse "a\r\nb".toList = parse "a\nb".toList := by
  have h := C8_crlf_equiv [['a'], ['b']] (by decide)
  rw [show joinSep ['\r', '\n'] [['a'], ['b']] = "a\r\nb".toList from by decide,
    show joinSep ['\n'] [['a'], ['b']] = "a\nb".toList from by decide] at h
  exact h

/-- C10 as stated is false: the claim quantifies over every non-empty text
not ending with a newline, but a text ending with a carriage return is a
counterexample, because the appended `'\n'` turns the final `"\r"` into a
`"\r\n"` line terminator that `str::lines` strips.  On `"=>u\r"` the final
`'\r'` is part of the link line and makes `split_once` produce
`name = Some("")`, while with the appended newline the line is `"=>u"` and
`name = None`. -/
theorem C10_counterexample :
    "=>u\r".toList ≠ [] ∧ "=>u\r".toList.getLast? ≠ some '\n' ∧
      parse ("=>u\r".toList ++ ['\n']) ≠ parse "=>u\r".toList := by
  refine ⟨by decide, by decide, ?_⟩
  have e1 : rustLines ("=>u\r".toList ++ ['\n']) = ["=>u".toList] := by decide
  have e2 : rustLines "=>u\r".toList = ["=>u\r".toList] := by decide
  simp only [parse, e1, e2]
  rw [parseLines_link "=>u".toList [] (by decide),
    parseLines_link "=>u\r".toList [] (by decide), parseLines_nil]
  decide

/-- C10 (amended): for every non-empty input text that ends neither with a
newline nor with a carriage return, appending a single trailing `"\n"`
does not change the parse result. -/
theorem C10_trailing_newline (s : List Char) (hne : s ≠ [])
    (h1 : s.getLast? ≠ some '\n') (h2 : s.getLast? ≠ some '\r') :
    parse (s ++ ['\n']) = parse s := by
  simp only [parse, rustLines_concat_nl_aux s.length s le_rfl hne h1 h2]

/-- Witness for the amended C10 at the text `"a"`. -/
theorem C10_trailing_newline_witness : parse "a\n".toList = parse "a".toList := by
  have h := C10_trailing_newline "a".toList (by decide) (by decide) (by decide)
  rw [show "a".toList ++ ['\n'] = "a\n".toList from by decide] at h
  exact h

/-- C4: a preformatted block opened by a line starting with three
backticks, with a body none of whose lines starts with three backticks,
followed by a closing line starting with three backticks, yields exactly
one `Pre` record: `alt` is the trimmed remainder of the opening line after
the backticks (`none` if it trims to empty), `content` is the body lines
concatenated with no separator, and the closing line is discarded
entirely, including any trailing text on it. -/
theorem C4_pre_block (op : List Char) (body : List (List Char))
    (close : List Char) (rest : List (List Char))
    (hop : startsWith "```".toList op = true)
    (hbody : ∀ l ∈ body, startsWith "```".toList l = false)
    (hclose : startsWith "```".toList close = true) :
    parseLines (op :: (body ++ close :: rest)) =
      (parseLines rest).map (fun ls =>
        Line.Pre (if trim (op.drop 3) = [] then none else some (trim (op.drop 3)))
          (body.foldr (fun l acc => l ++ acc) []) :: ls) := by
  rw [parseLines_pre op _ hop,
    preBody_with_close body close rest hbody hclose]
  simp [parseAlt]

/-- Witness for C4 at the spec's example: info string `"rust"`, two body
lines, a closing fence with trailing text; the body is concatenated with
no separator and the closing line is discarded. -/
theorem C4_pre_block_witness :
    parseLines ["```rust".toList, "fn main() \x7b\x7d".toList,
        "// comment".toList, "``` trailing".toList] =
      some [Line.Pre (some "rust".toList)
        "fn main() \x7b\x7d// comment".toList] := by
  have h := C4_pre_block "```rust".toList
    ["fn main() \x7b\x7d".toList, "// comment".toList]
    "``` trailing".toList [] (by decide) (by decide) (by decide)
  rw [show ("```rust".toList ::
      (["fn main() \x7b\x7d".toList, "// comment".toList] ++
        "``` trailing".toList :: ([] : List (List Char)))) =
      ["```rust".toList, "fn main() \x7b\x7d".toList, "// comment".toList,
        "``` trailing".toList] from rfl] at h
  rw [h, parseLines_nil]
  decide

/-- C5: when input is exhausted before a closing fence is found, the parse
still succeeds and emits a `Pre` record whose content is whatever body
lines were accumulated up to end of input; no error is raised for an
unterminated block. -/
theorem C5_pre_unterminated (op : List Char) (body : List (List Char))
    (hop : startsWith "```".toList op = true)
    (hbody : ∀ l ∈ body, startsWith "```".toList l = false) :
    parseLines (op :: body) =
      some [Line.Pre (parseAlt op) (body.foldr (fun l acc => l ++ acc) [])] := by
  rw [parseLines_pre op body hop, preBody_no_close body hbody]
  simp [parseLines_nil]

/-- Whenever the parse succeeds, the number of records plus the lines
discarded inside preformatted blocks equals the number of physical
lines. -/
theorem parseLines_length (ls : List (List Char)) :
    ∀ recs : List Line, parseLines ls = some recs →
      recs.length + preExcess ls = ls.length := by
  induction ls using parseLines.induct with
  | case1 =>
      intro recs h
      rw [parseLines_nil] at h
      cases h
      simp [preExcess]
  | case2 line rest hc ih =>
      intro recs h
      rw [parseLines_link line rest hc] at h
      rw [preExcess, if_neg (not_sw_pre '=' ['>'] line (by decide) hc)]
      cases hr : parseLines rest with
      | none => rw [hr] at h; cases h
      | some tl =>
          rw [hr] at h
          cases h
          have := ih tl hr
          simp only [List.length_cons]
          omega
  | case3 line rest hc1 hc2 hph =>
      intro recs h
      rw [parseLines_heading_panic line rest hc2 hph] at h
      cases h
  | case4 line rest hc1 hc2 hrec hph ih =>
      intro recs h
      rw [parseLines_heading line rest hc2 hrec hph] at h
      rw [preExcess, if_neg (not_sw_pre '#' [] line (by decide) hc2)]
      cases hr : parseLines rest with
      | none => rw [hr] at h; cases h
      | some tl =>
          rw [hr] at h
          cases h
          have := ih tl hr
          simp only [List.length_cons]
          omega
  | case5 line rest hc1 hc2 hc3 ih =>
      intro recs h
      rw [parseLines_listItem line rest hc3] at h
      rw [preExcess, if_neg (not_sw_pre '*' [' '] line (by decide) hc3)]
      cases hr : parseLines rest with
      | none => rw [hr] at h; cases h
      | some tl =>
          rw [hr] at h
          cases h
          have := ih tl hr
          simp only [List.length_cons]
          omega
  | case6 line rest hc1 hc2 hc3 hc4 ih =>
      intro recs h
      rw [parseLines_quote line rest hc4] at h
      rw [preExcess, if_neg (not_sw_pre '>' [] line (by decide) hc4)]
      cases hr : parseLines rest with
      | none => rw [hr] at h; cases h
      | some tl =>
          rw [hr] at h
          cases h
          have := ih tl hr
          simp only [List.length_cons]
          omega
  | case7 line rest hc1 hc2 hc3 hc4 hc5 ih =>
      intro recs h
      rw [parseLines_pre line rest hc5] at h
      rw [preExcess, if_pos hc5]
      cases hr : parseLines (preBody rest).2 with
      | none => rw [hr] at h; cases h
      | some tl =>
          rw [hr] at h
          cases h
          have hle := preBody_le rest
          have := ih tl hr
          simp only [List.length_cons]
          omega
  | case8 line rest hc1 hc2 hc3 hc4 hc5 ih =>
      intro recs h
      rw [parseLines_text line rest (by simpa using hc1) (by simpa using hc2)
        (by simpa using hc3) (by simpa using hc4) (by simpa using hc5)] at h
      rw [preExcess, if_neg hc5]
      cases hr : parseLines rest with
      | none => rw [hr] at h; cases h
      | some tl =>
          rw [hr] at h
          cases h
          have := ih tl hr
          simp only [List.length_cons]
          omega

/-- When no preformatted block spans more than one physical line, no lines
are discarded. -/
theorem preExcess_eq_zero (ls : List (List Char))
    (h : hasMultiPre ls = false) : preExcess ls = 0 := by
  induction ls using preExcess.induct with
  | case1 => simp [preExcess]
  | case2 line rest hc ih =>
      rw [hasMultiPre, if_pos hc] at h
      rw [preExcess, if_pos hc]
      simp only [Bool.or_eq_false_iff, decide_eq_false_iff_not] at h
      rw [ih h.2]
      omega
  | case3 line rest hc ih =>
      rw [hasMultiPre, if_neg hc] at h
      rw [preExcess, if_neg hc]
      exact ih h

/-- C6: the number of records produced by a successful parse is at most
the number of physical lines: the two differ exactly by `preExcess`, the
sum over all preformatted blocks of the lines each block consumed beyond
its opening line, and they are equal when no preformatted block spans more
than one physical line. -/
theorem C6_line_count (ls : List (List Char)) (recs : List Line)
    (h : parseLines ls = some recs) :
    recs.length + preExcess ls = ls.length ∧
    recs.length ≤ ls.length ∧
    (hasMultiPre ls = false → recs.length = ls.length) := by
  have h1 := parseLines_length ls recs h
  refine ⟨h1, by omega, fun hm => ?_⟩
  have h2 := preExcess_eq_zero ls hm
  omega

/-- Witness for C6 on a 4-line input whose preformatted block consumes 3
physical lines and produces 1 record. -/
theorem C6_line_count_witness :
    [Line.Pre none "a".toList, Line.Text "x".toList].length +
        preExcess ["```".toList, "a".toList, "```".toList, "x".toList] =
      ["```".toList, "a".toList, "```".toList, "x".toList].length ∧
    [Line.Pre none "a".toList, Line.Text "x".toList].length ≤
      ["```".toList, "a".toList, "```".toList, "x".toList].length ∧
    (hasMultiPre ["```".toList, "a".toList, "```".toList, "x".toList] = false →
      [Line.Pre none "a".toList, Line.Text "x".toList].length =
        ["```".toList, "a".toList, "```".toList, "x".toList].length) := by
  have hp : parseLines ["```".toList, "a".toList, "```".toList, "x".toList] =
      some [Line.Pre none "a".toList, Line.Text "x".toList] := by
    rw [parseLines_pre "```".toList _ (by decide)]
    rw [show preBody ["a".toList, "```".toList, "x".toList] =
        ("a".toList, ["x".toList]) from by decide]
    rw [parseLines_text "x".toList []
      (by decide) (by decide) (by decide) (by decide) (by decide), parseLines_nil]
    decide
  exact C6_line_count _ _ hp

/-- Witness for C5 at an unterminated block with two body lines. -/
theorem C5_pre_unterminated_witness :
    parseLines ["```txt".toList, "ab".toList, "cd".toList] =
      some [Line.Pre (some "txt".toList) "abcd".toList] := by
  have h := C5_pre_unterminated "```txt".toList ["ab".toList, "cd".toList]
    (by decide) (by decide)
  rw [show ("```txt".toList :: ["ab".toList, "cd".toList]) =
      ["```txt".toList, "ab".toList, "cd".toList] from rfl] at h
  rw [h]
  decide

end Isochrone
